import Mathlib

/-!
Verification of the core of the `Tail` repository (a `tail`-style utility).

The development shallowly embeds the two Rust source files:

* `src/lib.rs` — `BackwardsReader`: reads a file backwards in 4096-byte blocks,
  splits each block on the newline byte, and reconstructs the last `n` logical
  lines; `StatefulFile`: a watched file with a metadata snapshot and a cursor.
* `src/main.rs` — the follow engine: classifies inotify notifications per file
  by comparing the current file size with the snapshot, resets or keeps the
  cursor, then reads and prints the newly readable lines; `initial_print`:
  a bounded deque that keeps the last `n` lines of a forward scan.

A file is modelled as its byte content, `List Nat` (each element < 256 in any
run of the real program; byte values are never arithmetically combined, so
plain `Nat` is faithful).  Panicking paths (`unwrap`, `read_exact` failures)
are modelled by `Option`, `none` meaning a panic.
-/

namespace Tail

/-- The fixed block size `BUFFER_SIZE: u64 = 4096` of `src/lib.rs`. -/
def BUFFER_SIZE : Nat := 4096

/-- The line delimiter byte `b'\n'`. -/
def NL : Nat := 10

/-- Model of `read_exact` into a buffer of length `n` after seeking to absolute
offset `off`: returns the `n` bytes starting at `off`, or `none` (the Rust code
panics) when fewer than `n` bytes are available there. -/
def readExact (file : List Nat) (off n : Nat) : Option (List Nat) :=
  if off + n ≤ file.length then some ((file.drop off).take n) else none

/-- State of `BackwardsReader` (src/lib.rs, lines 19-26).  The borrowed
`BufReader<File>` is replaced by passing the file content to each operation;
the reader's own fields are carried verbatim. -/
structure BackwardsReader where
  pieces : List (List (List Nat))
  num_of_lines : Nat
  total_newlines : Nat
  first_read : Bool
  last_offset : Nat
deriving Repr, DecidableEq

/-- `BackwardsReader::new` (src/lib.rs, lines 29-40): seeks to end of file, so
`last_offset` starts as the file length. -/
def BackwardsReader.new (num_of_lines : Nat) (file : List Nat) : BackwardsReader :=
  { pieces := []
    num_of_lines := num_of_lines
    total_newlines := 0
    first_read := true
    last_offset := file.length }

/-- The block-ingestion step duplicated in both branches of
`BackwardsReader::read` (src/lib.rs, lines 53-60 and 69-76): apply the
first-read trailing-delimiter correction, split the buffer on the delimiter,
add `fragments - 1` to the newline counter and prepend the fragment sequence
to the piece queue.  (`slice::split` on a buffer with `d` delimiters yields
`d + 1` fragments, exactly as `List.splitOn`.) -/
def BackwardsReader.ingest (st : BackwardsReader) (buff : List Nat) : BackwardsReader :=
  if st.first_read && (buff.getLastD 0 != NL) then
    let frags := (buff ++ [NL]).splitOn NL
    { st with
      total_newlines := st.total_newlines + 1 + (frags.length - 1)
      first_read := false
      pieces := frags :: st.pieces }
  else
    let frags := buff.splitOn NL
    { st with
      total_newlines := st.total_newlines + (frags.length - 1)
      pieces := frags :: st.pieces }

/-- `BackwardsReader::read` (src/lib.rs, lines 42-82).  The Rust code computes
`last_offset - BUFFER_SIZE` in `u64`; when `last_offset < BUFFER_SIZE` this
wraps to a value above `i64::MAX`, the `lseek` fails, and the `Err` branch is
taken — so the `Err` branch is taken exactly when `last_offset < BUFFER_SIZE`.
In the `Err` branch with `last_offset > 0` the remaining prefix bytes
`file[0 .. last_offset]` are ingested and the scan stops; with
`last_offset = 0` nothing is read.  In the `Ok` branch one full block ending
at the old `last_offset` is ingested, `first_read` is forced off, and the
returned Bool is `total_newlines < num_of_lines` (whether to continue). -/
def BackwardsReader.read (file : List Nat) (st : BackwardsReader) :
    Option (BackwardsReader × Bool) :=
  if BUFFER_SIZE ≤ st.last_offset then
    let newOffset := st.last_offset - BUFFER_SIZE
    match readExact file newOffset BUFFER_SIZE with
    | none => none
    | some buff =>
      let stSeek := { st with last_offset := newOffset }
      let stRead := stSeek.ingest buff
      let stDone := { stRead with first_read := false }
      some (stDone, decide (stDone.total_newlines < stDone.num_of_lines))
  else
    if 0 < st.last_offset then
      match readExact file 0 st.last_offset with
      | none => none
      | some buff => some (st.ingest buff, false)
    else
      some (st, false)

/-- `ingest` never touches the recorded offset. -/
theorem BackwardsReader.ingest_last_offset (st : BackwardsReader) (buff : List Nat) :
    (st.ingest buff).last_offset = st.last_offset := by
  unfold BackwardsReader.ingest
  split <;> rfl

/-- `ingest` never touches the target line count. -/
theorem BackwardsReader.ingest_num_of_lines (st : BackwardsReader) (buff : List Nat) :
    (st.ingest buff).num_of_lines = st.num_of_lines := by
  unfold BackwardsReader.ingest
  split <;> rfl

/-- In the continuing case `read` moved the offset one block backwards. -/
theorem BackwardsReader.read_true_lt (file : List Nat) (st st' : BackwardsReader)
    (h : st.read file = some (st', true)) : st'.last_offset < st.last_offset := by
  unfold BackwardsReader.read at h
  by_cases hb : BUFFER_SIZE ≤ st.last_offset
  · rw [if_pos hb] at h
    cases hre : readExact file (st.last_offset - BUFFER_SIZE) BUFFER_SIZE with
    | none => simp [hre] at h
    | some buff =>
      simp only [hre, Option.some.injEq, Prod.mk.injEq] at h
      have hlo : st'.last_offset = st.last_offset - BUFFER_SIZE := by
        rw [← h.1]
        simp [BackwardsReader.ingest_last_offset]
      have hpos : 0 < BUFFER_SIZE := by decide
      omega
  · rw [if_neg hb] at h
    by_cases hz : 0 < st.last_offset
    · rw [if_pos hz] at h
      cases hre : readExact file 0 st.last_offset with
      | none => simp [hre] at h
      | some buff => simp [hre] at h
    · rw [if_neg hz] at h
      simp at h

/-- The loop `while self.read() {}` of `read_all` (src/lib.rs, line 85). -/
def BackwardsReader.scan (file : List Nat) (st : BackwardsReader) :
    Option BackwardsReader :=
  match h : st.read file with
  | none => none
  | some (st', true) => st'.scan file
  | some (st', false) => some st'
termination_by st.last_offset
decreasing_by exact BackwardsReader.read_true_lt file st st' h

/-- Unfolding equation for `scan`, stated without the dependent match. -/
theorem BackwardsReader.scan_eq (file : List Nat) (st : BackwardsReader) :
    st.scan file = match st.read file with
      | none => none
      | some (st', true) => st'.scan file
      | some (st', false) => some st' := by
  rw [BackwardsReader.scan]
  cases h : st.read file with
  | none => simp [h]
  | some p =>
    obtain ⟨st', b⟩ := p
    cases b <;> simp [h]

/-- The overshoot-correction block of `read_all` (src/lib.rs, lines 90-100):
when the newline counter exceeds the target, pop the front (oldest) fragment
sequence, discard `total_newlines - num_of_lines` fragments from its front
(each `pop_front().unwrap()`, so `none` when it runs empty too early),
decrement the counter and push the remainder back, even when empty. -/
def BackwardsReader.overshoot (st : BackwardsReader) : Option BackwardsReader :=
  if st.num_of_lines < st.total_newlines then
    match st.pieces with
    | [] => none
    | first_chunk :: rest =>
      let pieces_to_discard := st.total_newlines - st.num_of_lines
      if pieces_to_discard ≤ first_chunk.length then
        some { st with
          pieces := first_chunk.drop pieces_to_discard :: rest
          total_newlines := st.total_newlines - pieces_to_discard }
      else none
  else some st

/-- One turn of the emission loop of `read_all` (src/lib.rs, lines 105-118)
over the pair (bytes written so far, pending line accumulator).  A
single-fragment sequence only extends the accumulator; a longer one emits
every fragment but the last — each joined with the pending accumulator and
terminated with the delimiter — and leaves the last fragment pending. -/
def emitPiece (acc : List Nat × List Nat) (piece : List (List Nat)) :
    List Nat × List Nat :=
  match piece with
  | [] => acc
  | [chunk] => (acc.1, acc.2 ++ chunk)
  | _ =>
    (acc.1 ++ piece.dropLast.foldl (fun out chunk => out ++ chunk ++ [NL]) acc.2,
     piece.getLastD [])

/-- The emission phase of `read_all` (src/lib.rs, lines 104-121): drain the
piece queue front-to-back, then flush a non-empty accumulator (written, as in
the source, without a trailing delimiter). -/
def emitAll (pieces : List (List (List Nat))) : List Nat :=
  let acc := pieces.foldl emitPiece ([], [])
  if acc.2.isEmpty then acc.1 else acc.1 ++ acc.2

/-- `BackwardsReader::read_all` (src/lib.rs, lines 84-122): run the backward
scan, apply the overshoot correction, and emit; the result is the byte
sequence written to the writer (`none` for a panic). -/
def BackwardsReader.read_all (file : List Nat) (st : BackwardsReader) :
    Option (List Nat) :=
  match st.scan file with
  | none => none
  | some st' =>
    match st'.overshoot with
    | none => none
    | some st'' =>
      if st''.pieces.isEmpty then some []
      else some (emitAll st''.pieces)

/-- The whole pipeline of examples/read_lines.rs: `BackwardsReader::new(n, fd)`
followed by `read_all`. -/
def tailLines (n : Nat) (file : List Nat) : Option (List Nat) :=
  (BackwardsReader.new n file).read_all file

/-- Number of delimiter boundaries across the fragment sequences of the piece
queue: the sum over all queued blocks of (number of fragments - 1). -/
def queueBoundaries (pieces : List (List (List Nat))) : Nat :=
  (pieces.map (fun b => b.length - 1)).sum

/-- Modelled from the spec (sections 3 and 8): the number of logical lines of
a byte content — one per delimiter, plus one for a trailing delimiter-less
fragment. -/
def numLines (file : List Nat) : Nat :=
  file.count NL + (if file.getLastD NL = NL then 0 else 1)

/-- Modelled from the spec (section 8): the expected output of
BackwardsReader(n) — the last `min n L` logical lines, each delimiter
terminated (a synthetic delimiter ends a trailing delimiter-less line),
byte-identical, in forward order. -/
def specLastLines (n : Nat) (file : List Nat) : List Nat :=
  let content := if file.getLastD NL = NL then file else file ++ [NL]
  let ls := (content.splitOn NL).dropLast.map (fun l => l ++ [NL])
  (ls.drop (ls.length - n)).flatten

section OvershootTheorems

/-- Characterization of the overshoot correction when the discard fits in the
front block. -/
theorem overshoot_discard_spec (st : BackwardsReader) (first_chunk : List (List Nat))
    (rest : List (List (List Nat)))
    (hp : st.pieces = first_chunk :: rest)
    (hgt : st.num_of_lines < st.total_newlines)
    (hle : st.total_newlines - st.num_of_lines ≤ first_chunk.length) :
    st.overshoot = some { st with
      pieces := first_chunk.drop (st.total_newlines - st.num_of_lines) :: rest
      total_newlines := st.num_of_lines } := by
  have harith : st.total_newlines - (st.total_newlines - st.num_of_lines) = st.num_of_lines :=
    Nat.sub_sub_self (Nat.le_of_lt hgt)
  unfold BackwardsReader.overshoot
  rw [if_pos hgt, hp]
  simp only [hle, if_pos, harith]

/-- C5: after the backward scan stops, whenever the newline counter exceeds
the target, `read_all` discards exactly `total_newlines - num_of_lines`
fragments from the front of the oldest queued block, decrements the counter
by that amount (leaving it equal to the target), and pushes the remainder of
the block back into the queue rather than removing it — even when the
discard exhausts the block. -/
theorem spec_C5_overshoot_discard (st : BackwardsReader) (first_chunk : List (List Nat))
    (rest : List (List (List Nat)))
    (hp : st.pieces = first_chunk :: rest)
    (hgt : st.num_of_lines < st.total_newlines)
    (hle : st.total_newlines - st.num_of_lines ≤ first_chunk.length) :
    st.overshoot = some { st with
      pieces := first_chunk.drop (st.total_newlines - st.num_of_lines) :: rest
      total_newlines := st.num_of_lines } :=
  overshoot_discard_spec st first_chunk rest hp hgt hle

/-- Witness for C5 at a concrete overshooting state, one where the discard
exhausts the front block: the emptied block is pushed back, not removed. -/
theorem spec_C5_overshoot_discard_witness :
    (⟨[[[97], [98]]], 1, 3, false, 0⟩ : BackwardsReader).overshoot =
      some ⟨[[]], 1, 1, false, 0⟩ := by
  have h := spec_C5_overshoot_discard ⟨[[[97], [98]]], 1, 3, false, 0⟩ [[97], [98]] []
    rfl (by decide) (by decide)
  simpa using h

end OvershootTheorems

section SmallFileEvaluations

/-- Backward read step over the five-byte content of the lines a, b, c with
no trailing delimiter, at target 2.  The trailing-delimiter correction adds 1
for the trailing line and then the appended synthetic delimiter is counted a
second time through `fragments - 1`, so the counter reaches 4 although the
delimiter-extended content has only 3 line boundaries. -/
theorem read_abc_two : (BackwardsReader.new 2 [97, 10, 98, 10, 99]).read [97, 10, 98, 10, 99] =
    some (⟨[[[97], [98], [99], []]], 2, 4, false, 5⟩, false) := by decide

/-- The scan over that content stops after the single terminal read. -/
theorem scan_abc_two : (BackwardsReader.new 2 [97, 10, 98, 10, 99]).scan [97, 10, 98, 10, 99] =
    some ⟨[[[97], [98], [99], []]], 2, 4, false, 5⟩ := by
  rw [BackwardsReader.scan_eq, read_abc_two]

/-- C1: divergence at the failing input.  The content consists of the three
logical lines a, b, c (no trailing delimiter); the spec requires the last
2 lines, the bytes of b and c, but the program emits only the line c.  The
inflated newline counter (4 instead of 3) makes the overshoot correction
discard one extra line. -/
theorem spec_C1_divergence :
    tailLines 2 [97, 10, 98, 10, 99] = some [99, 10] ∧
    numLines [97, 10, 98, 10, 99] = 3 ∧
    specLastLines 2 [97, 10, 98, 10, 99] = [98, 10, 99, 10] := by
  refine ⟨?_, by decide, by decide⟩
  simp only [tailLines, BackwardsReader.read_all, scan_abc_two]
  decide

/-- Backward read step of the same content at target 1. -/
theorem read_abc_one : (BackwardsReader.new 1 [97, 10, 98, 10, 99]).read [97, 10, 98, 10, 99] =
    some (⟨[[[97], [98], [99], []]], 1, 4, false, 5⟩, false) := by decide

/-- The scan at target 1 likewise stops after the terminal read. -/
theorem scan_abc_one : (BackwardsReader.new 1 [97, 10, 98, 10, 99]).scan [97, 10, 98, 10, 99] =
    some ⟨[[[97], [98], [99], []]], 1, 4, false, 5⟩ := by
  rw [BackwardsReader.scan_eq, read_abc_one]

/-- C3: divergence at the failing input.  At target 1 over the same
delimiter-less content the overshoot correction discards all three text
fragments (excess 4 - 1 = 3), so the trailing line c is dropped entirely and
nothing at all is emitted, where the spec requires the line c with one
delimiter appended. -/
theorem spec_C3_divergence :
    tailLines 1 [97, 10, 98, 10, 99] = some [] ∧
    specLastLines 1 [97, 10, 98, 10, 99] = [99, 10] := by
  refine ⟨?_, by decide⟩
  simp only [tailLines, BackwardsReader.read_all, scan_abc_one]
  decide

/-- C10: a zero-length source.  The terminal branch of `read` skips the
prefix read (`last_offset = 0`), the piece queue stays empty, and `read_all`
returns through its empty-queue check having written nothing; no panicking
path (`none`) is reached. -/
theorem spec_C10_empty_source (n : Nat) :
    (BackwardsReader.new n []).read [] = some (BackwardsReader.new n [], false) ∧
    (BackwardsReader.new n []).scan [] = some (BackwardsReader.new n []) ∧
    tailLines n [] = some [] := by
  have h1 : (BackwardsReader.new n []).read [] = some (BackwardsReader.new n [], false) := by
    unfold BackwardsReader.read BackwardsReader.new
    norm_num [BUFFER_SIZE]
  have h2 : (BackwardsReader.new n []).scan [] = some (BackwardsReader.new n []) := by
    rw [BackwardsReader.scan_eq, h1]
  refine ⟨h1, h2, ?_⟩
  simp only [tailLines, BackwardsReader.read_all, h2]
  unfold BackwardsReader.overshoot BackwardsReader.new
  norm_num

end SmallFileEvaluations

section BlockBoundaryEvaluations

/-- A `read_exact` that covers the whole content. -/
theorem readExact_whole (file : List Nat) (n : Nat) (h : file.length = n) :
    readExact file 0 n = some file := by
  unfold readExact
  rw [if_pos (by omega)]
  simp [← h]

/-- The last element of a one-element extension. -/
theorem getLastD_append_single (l : List Nat) (a d : Nat) : (l ++ [a]).getLastD d = a := by
  simp

/-- Splitting a delimiter-free run with one delimiter appended yields the run
and one empty fragment. -/
theorem splitOn_replicate_concat (k : Nat) :
    ((List.replicate k 97 ++ [NL]).splitOn NL) = [List.replicate k 97, []] := by
  have hns : ∀ x ∈ List.replicate k (97 : Nat), ¬((x == NL) = true) := by
    intro x hx
    have hx' : x = 97 := List.eq_of_mem_replicate hx
    simp [hx', NL]
  show (List.replicate k 97 ++ NL :: []).splitOnP (· == NL) = _
  rw [List.splitOnP_first (· == NL) (List.replicate k 97) hns NL (by simp) []]
  rw [List.splitOnP_nil]

/-- The first backward read over a content of exactly one block (4096 bytes)
not ending in the delimiter: the whole file is read as one block at offset 0,
the first-read correction fires, and the counter becomes
`1 + (fragments - 1)`. -/
theorem BackwardsReader.read_exact_block (file : List Nat) (n : Nat)
    (hlen : file.length = BUFFER_SIZE) (hlast : ¬file.getLastD 0 = NL) :
    (BackwardsReader.new n file).read file =
      some (⟨[(file ++ [NL]).splitOn NL], n,
             0 + 1 + (((file ++ [NL]).splitOn NL).length - 1), false, 0⟩,
        decide (0 + 1 + (((file ++ [NL]).splitOn NL).length - 1) < n)) := by
  simp only [BackwardsReader.read, BackwardsReader.new, hlen]
  rw [if_pos (le_refl BUFFER_SIZE)]
  rw [Nat.sub_self]
  rw [readExact_whole file BUFFER_SIZE hlen]
  simp only [BackwardsReader.ingest]
  rw [if_pos (show (true && (file.getLastD 0 != NL)) = true by
    simp only [Bool.true_and, bne_iff_ne, ne_eq]; exact hlast)]

/-- The single backward read over the 4096-byte delimiter-less content: the
counter reaches 2 although the delimiter-extended content has a single line
boundary. -/
theorem read_block4096 :
    (BackwardsReader.new 1 (List.replicate 4096 97)).read (List.replicate 4096 97) =
      some (⟨[[List.replicate 4096 97, []]], 1, 2, false, 0⟩, false) := by
  have hlast : ¬(List.replicate 4096 (97 : Nat)).getLastD 0 = NL := by
    show ¬(List.replicate (4095 + 1) (97 : Nat)).getLastD 0 = NL
    rw [List.replicate_succ', getLastD_append_single]
    decide
  rw [BackwardsReader.read_exact_block (List.replicate 4096 97) 1
    (List.length_replicate 4096 97) hlast]
  rw [splitOn_replicate_concat]
  rfl

/-- The scan over the 4096-byte content stops after that single read. -/
theorem scan_block4096 :
    (BackwardsReader.new 1 (List.replicate 4096 97)).scan (List.replicate 4096 97) =
      some ⟨[[List.replicate 4096 97, []]], 1, 2, false, 0⟩ := by
  rw [BackwardsReader.scan_eq, read_block4096]

/-- C4: divergence at the two boundary shapes the claim names.  A content
whose length is exactly one block (4096 bytes of a, no trailing delimiter) at
target 1 emits nothing at all, where the spec requires its single line; a
content smaller than one block (three two-byte lines, no trailing delimiter)
at target 2 emits only the last line instead of the last two.  Reaching
start-of-file is indeed a normal exit in both runs (no panic, modelled as no
`none`), but the emitted bytes are not the last `min n L` lines. -/
theorem spec_C4_divergence :
    tailLines 1 (List.replicate 4096 97) = some [] ∧
    specLastLines 1 (List.replicate 4096 97) = List.replicate 4096 97 ++ [10] ∧
    tailLines 2 [97, 97, 10, 98, 98, 10, 99, 99] = some [99, 99, 10] ∧
    specLastLines 2 [97, 97, 10, 98, 98, 10, 99, 99] = [98, 98, 10, 99, 99, 10] := by
  refine ⟨?_, ?_, ?_, by decide⟩
  · simp only [tailLines, BackwardsReader.read_all, scan_block4096]
    rfl
  · have hlastNL : (List.replicate 4096 (97 : Nat)).getLastD NL = 97 := by
      show (List.replicate (4095 + 1) (97 : Nat)).getLastD NL = 97
      rw [List.replicate_succ', getLastD_append_single]
    have hsplit := splitOn_replicate_concat 4096
    obtain ⟨R, hR⟩ : ∃ R, List.replicate 4096 (97 : Nat) = R := ⟨_, rfl⟩
    rw [hR] at hlastNL hsplit ⊢
    unfold specLastLines
    rw [if_neg (by rw [hlastNL]; decide)]
    simp only [hsplit]
    simp [NL]
  · have h1 : (BackwardsReader.new 2 [97, 97, 10, 98, 98, 10, 99, 99]).read
        [97, 97, 10, 98, 98, 10, 99, 99] =
        some (⟨[[[97, 97], [98, 98], [99, 99], []]], 2, 4, false, 8⟩, false) := by decide
    have h2 : (BackwardsReader.new 2 [97, 97, 10, 98, 98, 10, 99, 99]).scan
        [97, 97, 10, 98, 98, 10, 99, 99] =
        some ⟨[[[97, 97], [98, 98], [99, 99], []]], 2, 4, false, 8⟩ := by
      rw [BackwardsReader.scan_eq, h1]
    simp only [tailLines, BackwardsReader.read_all, h2]
    decide

end BlockBoundaryEvaluations

section ScanInvariant

/-- Fragment count of a delimiter split: one more than the delimiter count. -/
theorem length_splitOnP_count (l : List Nat) :
    (l.splitOnP (· == NL)).length = l.count NL + 1 := by
  induction l with
  | nil => rfl
  | cons x xs ih =>
    rw [List.splitOnP_cons]
    by_cases hx : x = NL
    · subst hx
      simp [ih, List.count_cons]
    · rw [if_neg (by simp [hx])]
      simp [ih, List.count_cons, hx]

/-- Fragment count of `splitOn` at the delimiter. -/
theorem length_splitOn_count (l : List Nat) : (l.splitOn NL).length = l.count NL + 1 :=
  length_splitOnP_count l

/-- A delimiter split is never empty. -/
theorem splitOn_ne_nil (l : List Nat) : l.splitOn NL ≠ [] :=
  List.splitOnP_ne_nil _ l

/-- Boundary count of a freshly prepended block. -/
theorem queueBoundaries_cons (b : List (List Nat)) (rest : List (List (List Nat))) :
    queueBoundaries (b :: rest) = (b.length - 1) + queueBoundaries rest := by
  simp [queueBoundaries]

/-- Dropping a proper prefix does not change the last element. -/
theorem getLastD_drop (file : List Nat) (m : Nat) (hm : m < file.length) :
    (file.drop m).getLastD 0 = file.getLastD 0 := by
  have hne : file.drop m ≠ [] := by
    intro hc
    have hlen := congrArg List.length hc
    simp at hlen
    omega
  rw [List.getLastD_eq_getLast?, List.getLastD_eq_getLast?]
  conv_rhs => rw [← List.take_append_drop m file]
  rw [List.getLast?_append_of_ne_nil _ hne]

/-- The extra unit the newline counter carries once the first-read correction
has fired: while `first_read` is still set nothing fired; afterwards the
correction fired exactly when the file does not end in the delimiter. -/
def corrTerm (file : List Nat) (st : BackwardsReader) : Nat :=
  if st.first_read then 0 else if file.getLastD 0 = NL then 0 else 1

/-- Invariant carried through every step of the backward scan. -/
def ScanInv (file : List Nat) (st : BackwardsReader) : Prop :=
  st.last_offset ≤ file.length ∧
  (st.first_read = true → st.last_offset = file.length) ∧
  st.total_newlines = queueBoundaries st.pieces + corrTerm file st

/-- Condition holding whenever the scan loop (re-)enters `read`: either the
previous read asked to continue, or nothing has been read yet. -/
def EntryCond (st : BackwardsReader) : Prop :=
  st.total_newlines < st.num_of_lines ∨ (st.pieces = [] ∧ st.total_newlines = 0)

/-- One `read` step preserves the invariant; a continuing step reports a
counter still below target; a stopping step either left the state untouched
or pushed one block of at least one fragment whose length bounds the growth
of the counter. -/
theorem BackwardsReader.read_step (file : List Nat) (st : BackwardsReader)
    (hinv : ScanInv file st) :
    ∃ st' b, st.read file = some (st', b) ∧ ScanInv file st' ∧
      st'.num_of_lines = st.num_of_lines ∧
      st.total_newlines ≤ st'.total_newlines ∧
      (b = true → st'.total_newlines < st'.num_of_lines) ∧
      (b = false → st' = st ∨ ∃ frags, st'.pieces = frags :: st.pieces ∧
        1 ≤ frags.length ∧
        st'.total_newlines ≤ st.total_newlines + frags.length) := by
  obtain ⟨h1, h2, h3⟩ := hinv
  by_cases hb : BUFFER_SIZE ≤ st.last_offset
  · -- Ok branch: one full block ending at the old offset
    have hok : st.last_offset - BUFFER_SIZE + BUFFER_SIZE ≤ file.length := by omega
    have hre : readExact file (st.last_offset - BUFFER_SIZE) BUFFER_SIZE =
        some ((file.drop (st.last_offset - BUFFER_SIZE)).take BUFFER_SIZE) := by
      unfold readExact
      rw [if_pos hok]
    have hBpos : 0 < BUFFER_SIZE := by decide
    have hbuffeq : st.first_read = true →
        ((file.drop (st.last_offset - BUFFER_SIZE)).take BUFFER_SIZE).getLastD 0 =
          file.getLastD 0 := by
      intro hfr
      have hlo := h2 hfr
      have htk : (file.drop (st.last_offset - BUFFER_SIZE)).take BUFFER_SIZE =
          file.drop (st.last_offset - BUFFER_SIZE) := by
        apply List.take_of_length_le
        simp
        omega
      rw [htk, hlo]
      exact getLastD_drop file (file.length - BUFFER_SIZE) (by omega)
    by_cases hc : (st.first_read &&
        (((file.drop (st.last_offset - BUFFER_SIZE)).take BUFFER_SIZE).getLastD 0 != NL)) = true
    · -- first-read correction fires
      have hk1 : 1 ≤ (((file.drop (st.last_offset - BUFFER_SIZE)).take BUFFER_SIZE ++
          [NL]).splitOn NL).length := List.length_pos.mpr (splitOn_ne_nil _)
      have hread : st.read file = some
          (⟨((file.drop (st.last_offset - BUFFER_SIZE)).take BUFFER_SIZE ++
              [NL]).splitOn NL :: st.pieces,
            st.num_of_lines,
            st.total_newlines + 1 + ((((file.drop (st.last_offset - BUFFER_SIZE)).take
              BUFFER_SIZE ++ [NL]).splitOn NL).length - 1),
            false, st.last_offset - BUFFER_SIZE⟩,
          decide (st.total_newlines + 1 + ((((file.drop (st.last_offset -
            BUFFER_SIZE)).take BUFFER_SIZE ++ [NL]).splitOn NL).length - 1) <
            st.num_of_lines)) := by
        simp only [BackwardsReader.read]
        rw [if_pos hb]
        simp only [hre, BackwardsReader.ingest]
        rw [if_pos hc]
      rw [Bool.and_eq_true, bne_iff_ne] at hc
      have hfl : ¬file.getLastD 0 = NL := by
        rw [← hbuffeq hc.1]
        exact hc.2
      have h30 : st.total_newlines = queueBoundaries st.pieces := by
        simpa [corrTerm, hc.1] using h3
      refine ⟨_, _, hread, ⟨?_, ?_, ?_⟩, rfl, ?_, ?_, ?_⟩
      · show st.last_offset - BUFFER_SIZE ≤ file.length
        omega
      · exact fun hx => absurd hx Bool.false_ne_true
      · show st.total_newlines + 1 + (_ - 1) =
          queueBoundaries (_ :: st.pieces) + corrTerm file _
        rw [queueBoundaries_cons]
        show _ = _ + (if file.getLastD 0 = NL then 0 else 1)
        rw [if_neg hfl]
        omega
      · show st.total_newlines ≤ st.total_newlines + 1 + _
        omega
      · intro hbt
        exact of_decide_eq_true hbt
      · intro _
        right
        exact ⟨_, rfl, hk1, by show st.total_newlines + 1 + _ ≤ _; omega⟩
    · -- no correction on this block
      have hk1 : 1 ≤ (((file.drop (st.last_offset - BUFFER_SIZE)).take
          BUFFER_SIZE).splitOn NL).length := List.length_pos.mpr (splitOn_ne_nil _)
      have hread : st.read file = some
          (⟨((file.drop (st.last_offset - BUFFER_SIZE)).take BUFFER_SIZE).splitOn NL ::
              st.pieces,
            st.num_of_lines,
            st.total_newlines + ((((file.drop (st.last_offset - BUFFER_SIZE)).take
              BUFFER_SIZE).splitOn NL).length - 1),
            false, st.last_offset - BUFFER_SIZE⟩,
          decide (st.total_newlines + ((((file.drop (st.last_offset -
            BUFFER_SIZE)).take BUFFER_SIZE).splitOn NL).length - 1) <
            st.num_of_lines)) := by
        simp only [BackwardsReader.read]
        rw [if_pos hb]
        simp only [hre, BackwardsReader.ingest]
        rw [if_neg (by simpa using hc)]
      refine ⟨_, _, hread, ⟨?_, ?_, ?_⟩, rfl, ?_, ?_, ?_⟩
      · show st.last_offset - BUFFER_SIZE ≤ file.length
        omega
      · exact fun hx => absurd hx Bool.false_ne_true
      · show st.total_newlines + (_ - 1) =
          queueBoundaries (_ :: st.pieces) + corrTerm file _
        rw [queueBoundaries_cons]
        show _ = _ + (if file.getLastD 0 = NL then 0 else 1)
        cases hfr : st.first_read with
        | false =>
          have h30 : st.total_newlines = queueBoundaries st.pieces +
              (if file.getLastD 0 = NL then 0 else 1) := by
            simpa [corrTerm, hfr] using h3
          omega
        | true =>
          have hnl : ((file.drop (st.last_offset - BUFFER_SIZE)).take
              BUFFER_SIZE).getLastD 0 = NL := by
            by_contra hne
            exact hc (by simp only [hfr, Bool.true_and, bne_iff_ne, ne_eq]; exact hne)
          have hflnl : file.getLastD 0 = NL := by
            rw [← hbuffeq hfr]
            exact hnl
          have h30 : st.total_newlines = queueBoundaries st.pieces := by
            simpa [corrTerm, hfr] using h3
          rw [if_pos hflnl]
          omega
      · show st.total_newlines ≤ st.total_newlines + _
        omega
      · intro hbt
        exact of_decide_eq_true hbt
      · intro _
        right
        exact ⟨_, rfl, hk1, by show st.total_newlines + _ ≤ _; omega⟩
  · -- Err branch
    by_cases hz : 0 < st.last_offset
    · -- terminal read of the remaining bytes
      have hre : readExact file 0 st.last_offset =
          some ((file.drop 0).take st.last_offset) := by
        unfold readExact
        rw [if_pos (by omega)]
      have hbuffeq : st.first_read = true →
          (file.take st.last_offset).getLastD 0 = file.getLastD 0 := by
        intro hfr
        rw [h2 hfr, List.take_length]
      by_cases hc : (st.first_read && ((file.take st.last_offset).getLastD 0 != NL)) = true
      · have hk1 : 1 ≤ ((file.take st.last_offset ++ [NL]).splitOn NL).length :=
          List.length_pos.mpr (splitOn_ne_nil _)
        have hread : st.read file = some
            (⟨(file.take st.last_offset ++ [NL]).splitOn NL :: st.pieces,
              st.num_of_lines,
              st.total_newlines + 1 +
                (((file.take st.last_offset ++ [NL]).splitOn NL).length - 1),
              false, st.last_offset⟩, false) := by
          simp only [BackwardsReader.read]
          rw [if_neg hb, if_pos hz]
          simp only [hre, List.drop_zero, BackwardsReader.ingest]
          rw [if_pos hc]
        rw [Bool.and_eq_true, bne_iff_ne] at hc
        have hfl : ¬file.getLastD 0 = NL := by
          rw [← hbuffeq hc.1]
          exact hc.2
        have h30 : st.total_newlines = queueBoundaries st.pieces := by
          simpa [corrTerm, hc.1] using h3
        refine ⟨_, _, hread, ⟨h1, ?_, ?_⟩, rfl, ?_, fun hbt => absurd hbt Bool.false_ne_true, ?_⟩
        · exact fun hx => absurd hx Bool.false_ne_true
        · show st.total_newlines + 1 + (_ - 1) =
            queueBoundaries (_ :: st.pieces) + corrTerm file _
          rw [queueBoundaries_cons]
          show _ = _ + (if file.getLastD 0 = NL then 0 else 1)
          rw [if_neg hfl]
          omega
        · show st.total_newlines ≤ st.total_newlines + 1 + _
          omega
        · intro _
          right
          exact ⟨_, rfl, hk1, by show st.total_newlines + 1 + _ ≤ _; omega⟩
      · have hk1 : 1 ≤ ((file.take st.last_offset).splitOn NL).length :=
          List.length_pos.mpr (splitOn_ne_nil _)
        have hread : st.read file = some
            (⟨(file.take st.last_offset).splitOn NL :: st.pieces,
              st.num_of_lines,
              st.total_newlines + (((file.take st.last_offset).splitOn NL).length - 1),
              st.first_read, st.last_offset⟩, false) := by
          simp only [BackwardsReader.read]
          rw [if_neg hb, if_pos hz]
          simp only [hre, List.drop_zero, BackwardsReader.ingest]
          rw [if_neg (by simpa using hc)]
        refine ⟨_, _, hread, ⟨h1, ?_, ?_⟩, rfl, ?_, fun hbt => absurd hbt Bool.false_ne_true, ?_⟩
        · exact fun hx => h2 hx
        · show st.total_newlines + (_ - 1) =
            queueBoundaries (_ :: st.pieces) + corrTerm file _
          rw [queueBoundaries_cons]
          have hcsame : corrTerm file
              (⟨(file.take st.last_offset).splitOn NL :: st.pieces,
                st.num_of_lines,
                st.total_newlines + (((file.take st.last_offset).splitOn NL).length - 1),
                st.first_read, st.last_offset⟩ : BackwardsReader) = corrTerm file st := rfl
          rw [hcsame]
          omega
        · show st.total_newlines ≤ st.total_newlines + _
          omega
        · intro _
          right
          exact ⟨_, rfl, hk1, by show st.total_newlines + _ ≤ _; omega⟩
    · -- nothing left to read
      have hread : st.read file = some (st, false) := by
        simp only [BackwardsReader.read]
        rw [if_neg hb, if_neg hz]
      exact ⟨st, false, hread, ⟨h1, h2, h3⟩, rfl, le_refl _,
        fun hbt => absurd hbt Bool.false_ne_true, fun _ => Or.inl rfl⟩

/-- The scan loop runs to completion without panicking, preserves the
invariant, and when it stops with the counter above target the front block's
fragment count bounds the overshoot excess — strictly so for a positive
target. -/
theorem BackwardsReader.scan_spec (file : List Nat) :
    ∀ N st, st.last_offset ≤ N → ScanInv file st → EntryCond st →
      ∃ st', st.scan file = some st' ∧ ScanInv file st' ∧
        st'.num_of_lines = st.num_of_lines ∧
        (st'.num_of_lines < st'.total_newlines →
          ∃ f r, st'.pieces = f :: r ∧
            st'.total_newlines - st'.num_of_lines ≤ f.length ∧
            (1 ≤ st'.num_of_lines → st'.total_newlines - st'.num_of_lines < f.length)) := by
  intro N
  induction N with
  | zero =>
    intro st hN hinv hent
    obtain ⟨st', b, hread, hinv', hnum', hmono, hbt, hbf⟩ :=
      BackwardsReader.read_step file st hinv
    cases b with
    | true => exact absurd (BackwardsReader.read_true_lt file st st' hread) (by omega)
    | false =>
      refine ⟨st', ?_, hinv', hnum', ?_⟩
      · rw [BackwardsReader.scan_eq, hread]
      · intro hover
        rcases hbf rfl with heq | ⟨frags, hpieces, hk1, hle⟩
        · subst heq
          rcases hent with hlt | ⟨hp, ht⟩
          · exact absurd hover (by omega)
          · exact absurd hover (by omega)
        · refine ⟨frags, st.pieces, hpieces, ?_, ?_⟩
          · rcases hent with hlt | ⟨hp, ht⟩ <;> omega
          · intro h1n
            rcases hent with hlt | ⟨hp, ht⟩ <;> omega
  | succ n ih =>
    intro st hN hinv hent
    obtain ⟨st', b, hread, hinv', hnum', hmono, hbt, hbf⟩ :=
      BackwardsReader.read_step file st hinv
    cases b with
    | true =>
      have hlt := BackwardsReader.read_true_lt file st st' hread
      obtain ⟨st'', hscan'', hinv'', hnum'', hpost⟩ :=
        ih st' (by omega) hinv' (Or.inl (hbt rfl))
      refine ⟨st'', ?_, hinv'', hnum''.trans hnum', hpost⟩
      rw [BackwardsReader.scan_eq, hread]
      exact hscan''
    | false =>
      refine ⟨st', ?_, hinv', hnum', ?_⟩
      · rw [BackwardsReader.scan_eq, hread]
      · intro hover
        rcases hbf rfl with heq | ⟨frags, hpieces, hk1, hle⟩
        · subst heq
          rcases hent with hlt | ⟨hp, ht⟩
          · exact absurd hover (by omega)
          · exact absurd hover (by omega)
        · refine ⟨frags, st.pieces, hpieces, ?_, ?_⟩
          · rcases hent with hlt | ⟨hp, ht⟩ <;> omega
          · intro h1n
            rcases hent with hlt | ⟨hp, ht⟩ <;> omega

/-- `scan_spec` instantiated at the freshly constructed reader. -/
theorem BackwardsReader.scan_spec_new (n : Nat) (file : List Nat) :
    ∃ st', (BackwardsReader.new n file).scan file = some st' ∧ ScanInv file st' ∧
      st'.num_of_lines = n ∧
      (st'.num_of_lines < st'.total_newlines →
        ∃ f r, st'.pieces = f :: r ∧
          st'.total_newlines - st'.num_of_lines ≤ f.length ∧
          (1 ≤ st'.num_of_lines → st'.total_newlines - st'.num_of_lines < f.length)) :=
  BackwardsReader.scan_spec file file.length (BackwardsReader.new n file) (le_refl _)
    ⟨le_refl _, fun _ => rfl, rfl⟩ (Or.inr ⟨rfl, rfl⟩)

end ScanInvariant

section CounterTheorems

/-- C9 (amended): whenever the scan stops with the newline counter above the
target, the excess never exceeds the fragment count of the front (oldest)
block, so every `pop_front().unwrap()` of the discard succeeds; and provided
the target is at least 1, the excess is strictly smaller than the fragment
count, so the front block still holds at least one fragment after the
discard.  (At target 0 the pops still succeed but the front block can be
drained completely; see the counterexample.) -/
theorem spec_C9_amended (n : Nat) (file : List Nat) (st : BackwardsReader)
    (hscan : (BackwardsReader.new n file).scan file = some st)
    (hover : st.num_of_lines < st.total_newlines) :
    ∃ f r st2, st.pieces = f :: r ∧
      st.total_newlines - st.num_of_lines ≤ f.length ∧
      st.overshoot = some st2 ∧
      st2.pieces = f.drop (st.total_newlines - st.num_of_lines) :: r ∧
      (1 ≤ n → st.total_newlines - st.num_of_lines < f.length ∧
        f.drop (st.total_newlines - st.num_of_lines) ≠ []) := by
  obtain ⟨st', hscan', hinv', hnum', hpost⟩ := BackwardsReader.scan_spec_new n file
  rw [hscan] at hscan'
  obtain rfl : st = st' := Option.some.inj hscan'
  obtain ⟨f, r, hp, hle, hstrong⟩ := hpost hover
  refine ⟨f, r, { st with
      pieces := f.drop (st.total_newlines - st.num_of_lines) :: r
      total_newlines := st.num_of_lines }, hp, hle, ?_, rfl, ?_⟩
  · exact overshoot_discard_spec st f r hp hover hle
  · intro h1n
    have hlt : st.total_newlines - st.num_of_lines < f.length := hstrong (by omega)
    refine ⟨hlt, ?_⟩
    intro hd
    have hlen := congrArg List.length hd
    simp at hlen
    omega

/-- Witness for C9 (amended) over the three-line delimiter-less content at
target 1: excess 3 strictly below the 4 fragments of the sole block, the
discard succeeds and leaves one (empty) fragment. -/
theorem spec_C9_amended_witness :
    ∃ f r st2, [[[97], [98], [99], []]] = f :: r ∧
      (4 - 1 : Nat) ≤ f.length ∧
      (⟨[[[97], [98], [99], []]], 1, 4, false, 5⟩ : BackwardsReader).overshoot = some st2 ∧
      st2.pieces = f.drop (4 - 1) :: r ∧
      (1 ≤ 1 → (4 - 1 : Nat) < f.length ∧ f.drop (4 - 1) ≠ []) :=
  spec_C9_amended 1 [97, 10, 98, 10, 99] ⟨[[[97], [98], [99], []]], 1, 4, false, 5⟩
    scan_abc_one (by decide)

/-- C9 counterexample: at target 0 over the two-byte delimiter-less content
ab, the scan stops with counter 2, the discard pops both fragments of the
front block, and the block is left with no fragment at all — refuting the
claim that the front block always keeps at least one fragment. -/
theorem spec_C9_counterexample :
    ∃ st st2, (BackwardsReader.new 0 [97, 98]).scan [97, 98] = some st ∧
      st.overshoot = some st2 ∧ st2.pieces = [[]] := by
  refine ⟨⟨[[[97, 98], []]], 0, 2, false, 2⟩, ⟨[[]], 0, 0, false, 2⟩, ?_, by decide, by decide⟩
  have h1 : (BackwardsReader.new 0 [97, 98]).read [97, 98] =
      some (⟨[[[97, 98], []]], 0, 2, false, 2⟩, false) := by decide
  rw [BackwardsReader.scan_eq, h1]

/-- C8 (amended): at every stop of the scan, the newline counter equals the
number of delimiter boundaries across the queued fragment sequences (the sum
of fragments-1 over the queue) plus one extra unit exactly when the
first-read correction fired — the synthetic delimiter is counted twice, once
by the correction and once through the fragment count of the extended block.
The same relation still holds after the overshoot discard when the target is
at least 1. -/
theorem spec_C8_amended (n : Nat) (file : List Nat) (st st2 : BackwardsReader)
    (hscan : (BackwardsReader.new n file).scan file = some st) :
    st.total_newlines = queueBoundaries st.pieces + corrTerm file st ∧
    (st.overshoot = some st2 → 1 ≤ n →
      st2.total_newlines = queueBoundaries st2.pieces + corrTerm file st2) := by
  obtain ⟨st', hscan', hinv', hnum', hpost⟩ := BackwardsReader.scan_spec_new n file
  rw [hscan] at hscan'
  obtain rfl : st = st' := Option.some.inj hscan'
  refine ⟨hinv'.2.2, ?_⟩
  intro hov h1n
  by_cases hgt : st.num_of_lines < st.total_newlines
  · obtain ⟨f, r, hp, hle, hstrong⟩ := hpost hgt
    rw [overshoot_discard_spec st f r hp hgt hle] at hov
    obtain rfl : _ = st2 := Option.some.inj hov
    have hlt : st.total_newlines - st.num_of_lines < f.length := hstrong (by omega)
    have hQ : queueBoundaries st.pieces = (f.length - 1) + queueBoundaries r := by
      rw [hp, queueBoundaries_cons]
    have hQ2 : queueBoundaries
        (f.drop (st.total_newlines - st.num_of_lines) :: r) =
        ((f.drop (st.total_newlines - st.num_of_lines)).length - 1) +
          queueBoundaries r := queueBoundaries_cons _ _
    have hdl : (f.drop (st.total_newlines - st.num_of_lines)).length =
        f.length - (st.total_newlines - st.num_of_lines) := List.length_drop _ _
    have hct : corrTerm file { st with
        pieces := f.drop (st.total_newlines - st.num_of_lines) :: r
        total_newlines := st.num_of_lines } = corrTerm file st := rfl
    have h3 := hinv'.2.2
    show st.num_of_lines = _ + _
    rw [hQ2, hdl, hct]
    omega
  · have : st.overshoot = some st := by
      unfold BackwardsReader.overshoot
      rw [if_neg hgt]
    rw [this] at hov
    obtain rfl : st = st2 := Option.some.inj hov
    exact hinv'.2.2

/-- Witness for C8 (amended): over the three-line delimiter-less content at
target 2, the counter 4 is the 3 boundaries of the single queued block plus
the extra unit of the correction; after the discard the counter 2 is the 1
remaining boundary plus that same extra unit. -/
theorem spec_C8_amended_witness :
    (⟨[[[97], [98], [99], []]], 2, 4, false, 5⟩ : BackwardsReader).total_newlines =
      queueBoundaries [[[97], [98], [99], []]] +
        corrTerm [97, 10, 98, 10, 99] ⟨[[[97], [98], [99], []]], 2, 4, false, 5⟩ ∧
    (⟨[[[99], []]], 2, 2, false, 5⟩ : BackwardsReader).total_newlines =
      queueBoundaries [[[99], []]] +
        corrTerm [97, 10, 98, 10, 99] ⟨[[[99], []]], 2, 2, false, 5⟩ := by
  have h := spec_C8_amended 2 [97, 10, 98, 10, 99]
    ⟨[[[97], [98], [99], []]], 2, 4, false, 5⟩ ⟨[[[99], []]], 2, 2, false, 5⟩ scan_abc_two
  exact ⟨h.1, h.2 (by decide) (by decide)⟩

/-- C8 counterexample: over the two-byte delimiter-less content ab the scan
stops with counter 2, but the queue holds a single two-fragment block — one
boundary — so the counter does not equal the boundary count. -/
theorem spec_C8_counterexample :
    ∃ st, (BackwardsReader.new 10 [97, 98]).scan [97, 98] = some st ∧
      st.total_newlines ≠ queueBoundaries st.pieces := by
  refine ⟨⟨[[[97, 98], []]], 10, 2, false, 2⟩, ?_, by decide⟩
  have h1 : (BackwardsReader.new 10 [97, 98]).read [97, 98] =
      some (⟨[[[97, 98], []]], 10, 2, false, 2⟩, false) := by decide
  rw [BackwardsReader.scan_eq, h1]

end CounterTheorems

section FollowEngine

/-- `ModificationType` (src/main.rs, lines 87-91). -/
inductive ModificationType where
  | Added
  | Removed
  | NoChange
deriving Repr, DecidableEq

/-- The part of an inotify `EventMask` the program inspects: whether the mask
contains `MODIFY` and whether it contains `CLOSE_WRITE`. -/
structure EventMask where
  modify : Bool
  close_write : Bool
deriving Repr, DecidableEq

/-- `StatefulFile` (src/main.rs, lines 93-99): the buffered handle is modelled
by its seek position `pos`, the `old_metadata` snapshot by the observed length
`old_len`, and the cursor by the absolute offset of its `SeekFrom::Start`. -/
structure StatefulFile where
  pos : Nat
  old_len : Nat
  cursor : Nat
deriving Repr, DecidableEq

/-- `StatefulFile::modification_type` (src/main.rs, lines 117-127): compare
the current on-disk length against the snapshot. -/
def StatefulFile.modification_type (content : List Nat) (sf : StatefulFile) :
    ModificationType :=
  if sf.old_len < content.length then ModificationType.Added
  else if content.length < sf.old_len then ModificationType.Removed
  else ModificationType.NoChange

/-- `StatefulFile::update_metadata` (src/main.rs, lines 112-115). -/
def StatefulFile.update_metadata (content : List Nat) (sf : StatefulFile) : StatefulFile :=
  { sf with old_len := content.length }

/-- `StatefulFile::seek_to_cursor` (src/main.rs, lines 129-133). -/
def StatefulFile.seek_to_cursor (sf : StatefulFile) : StatefulFile :=
  { sf with pos := sf.cursor }

/-- `StatefulFile::update_cursor` (src/main.rs, lines 135-139). -/
def StatefulFile.update_cursor (sf : StatefulFile) : StatefulFile :=
  { sf with cursor := sf.pos }

/-- `StatefulFile::reset_cursor` (src/main.rs, lines 141-143). -/
def StatefulFile.reset_cursor (sf : StatefulFile) : StatefulFile :=
  { sf with cursor := 0 }

/-- One line as yielded by `BufRead::lines`: one trailing CR is stripped. -/
def stripCR (l : List Nat) : List Nat :=
  if l.getLastD 0 = 13 then l.dropLast else l

/-- `BufRead::lines` over the bytes `s`: split on the newline byte; the final
fragment yields a line only when non-empty (a trailing newline terminates the
last line, while an unterminated trailing fragment is still yielded); each
line drops one trailing CR.  (UTF-8 validation, which can panic in the
source, is outside the model.) -/
def linesOf (s : List Nat) : List (List Nat) :=
  let frags := s.splitOn NL
  let frags := if frags.getLastD [] = [] then frags.dropLast else frags
  frags.map stripCR

/-- `print_from_cursor` (src/main.rs, lines 247-251): print every line from
the reader's position to end of input; the position advances to the end of
the content (or stays put when it already lies beyond the end). -/
def print_from_cursor (content : List Nat) (sf : StatefulFile) :
    StatefulFile × List (List Nat) :=
  ({ sf with pos := max sf.pos content.length }, linesOf (content.drop sf.pos))

/-- The common tail of `follow` (src/main.rs, lines 227-231): update the
metadata snapshot, seek to the (possibly reset) cursor, print every complete
line from there, persist the new cursor, and return the modification type. -/
def followTail (content : List Nat) (sf : StatefulFile) (mt : ModificationType) :
    StatefulFile × List (List Nat) × ModificationType :=
  let sf1 := sf.update_metadata content
  let sf2 := sf1.seek_to_cursor
  let res := print_from_cursor content sf2
  (res.1.update_cursor, res.2, mt)

/-- `follow` (src/main.rs, lines 194-232).  A `Removed` or `NoChange`
classification returns early — no reset, no read — when the event mask
contains `MODIFY`; the cursor is reset for `Removed`, and for `NoChange` when
the previously returned modification type was `Removed`. -/
def follow (content : List Nat) (sf : StatefulFile) (event : EventMask)
    (prev_mod_type : Option ModificationType) :
    StatefulFile × List (List Nat) × ModificationType :=
  match sf.modification_type content with
  | ModificationType.Added => followTail content sf (sf.modification_type content)
  | ModificationType.Removed =>
    if event.modify then (sf, [], sf.modification_type content)
    else followTail content sf.reset_cursor (sf.modification_type content)
  | ModificationType.NoChange =>
    if event.modify then (sf, [], sf.modification_type content)
    else
      match prev_mod_type with
      | some ModificationType.Removed =>
        followTail content sf.reset_cursor (sf.modification_type content)
      | _ => followTail content sf (sf.modification_type content)

/-- State of `main`'s follow loop (src/main.rs, lines 176-191): the per-watch
`StatefulFile` table, and the single `prev_mod_type` variable that the loop
threads through every call of `follow` — shared across all watched files. -/
structure EngineState where
  files : Nat → StatefulFile
  prev_mod_type : Option ModificationType

/-- The loop body of `main` for one inotify event: an event whose mask meets
`CLOSE_WRITE | MODIFY` is dispatched to `follow` on the file of its watch
descriptor, and the returned modification type becomes the shared
`prev_mod_type`.  `contents` gives each watched file's current bytes; the
returned list is what the event printed. -/
def processEvent (contents : Nat → List Nat) (es : EngineState)
    (wd : Nat) (mask : EventMask) : EngineState × List (List Nat) :=
  if mask.close_write || mask.modify then
    let res := follow (contents wd) (es.files wd) mask es.prev_mod_type
    ({ files := fun w => if w = wd then res.1 else es.files w
       prev_mod_type := some res.2.2 }, res.2.1)
  else (es, [])

/-- Processing a batch of events in order, logging each event's printed lines
with its watch descriptor. -/
def processEvents (contents : Nat → List Nat) :
    EngineState → List (Nat × EventMask) → EngineState × List (Nat × List (List Nat))
  | es, [] => (es, [])
  | es, (wd, mask) :: rest =>
    let r1 := processEvent contents es wd mask
    let r2 := processEvents contents r1.1 rest
    (r2.1, (wd, r1.2) :: r2.2)

end FollowEngine

section FollowTheorems

/-- C2 counterexample: a notification whose observed state is `Removed` but
whose mask contains `MODIFY` returns early: the cursor stays at 5 instead of
being reset to 0, no line is printed, and the metadata snapshot is not
updated — against the claim that every `Removed` notification resets the
cursor and then reads. -/
theorem spec_C2_counterexample :
    (⟨7, 9, 5⟩ : StatefulFile).modification_type [97, 10] = ModificationType.Removed ∧
    follow [97, 10] ⟨7, 9, 5⟩ ⟨true, false⟩ none =
      (⟨7, 9, 5⟩, [], ModificationType.Removed) := by decide

/-- C2 (amended): only for notifications whose mask does not contain `MODIFY`
does a `Removed` observation reset the cursor to 0 — likewise a `NoChange`
observation whose previously observed state was `Removed` — after which the
engine updates the metadata snapshot, seeks to the reset cursor, prints every
complete line of the content and persists the cursor at end of content.
`Removed` or `NoChange` notifications whose mask contains `MODIFY` return
immediately with no state change and no output. -/
theorem spec_C2_amended (content : List Nat) (sf : StatefulFile) (event : EventMask)
    (prev : Option ModificationType) :
    (sf.modification_type content = ModificationType.Removed → event.modify = false →
      follow content sf event prev =
        (⟨content.length, content.length, content.length⟩, linesOf content,
          ModificationType.Removed)) ∧
    (sf.modification_type content = ModificationType.NoChange → event.modify = false →
      prev = some ModificationType.Removed →
      follow content sf event prev =
        (⟨content.length, content.length, content.length⟩, linesOf content,
          ModificationType.NoChange)) ∧
    ((sf.modification_type content = ModificationType.Removed ∨
        sf.modification_type content = ModificationType.NoChange) →
      event.modify = true →
      follow content sf event prev = (sf, [], sf.modification_type content)) := by
  refine ⟨?_, ?_, ?_⟩
  · intro hmt hev
    simp only [follow, hmt, hev, if_false, Bool.false_eq_true]
    simp [followTail, StatefulFile.reset_cursor, StatefulFile.update_metadata,
      StatefulFile.seek_to_cursor, StatefulFile.update_cursor, print_from_cursor,
      Nat.zero_max]
  · intro hmt hev hprev
    simp only [follow, hmt, hev, hprev, if_false, Bool.false_eq_true]
    simp [followTail, StatefulFile.reset_cursor, StatefulFile.update_metadata,
      StatefulFile.seek_to_cursor, StatefulFile.update_cursor, print_from_cursor,
      Nat.zero_max]
  · intro hmt hev
    rcases hmt with hmt | hmt <;> simp only [follow, hmt, hev, if_true]

/-- Witness for C2 (amended), reset path: a shrunk file (length 4 against a
snapshot of 9) with a close-write mask re-reads from 0 and leaves the cursor
at the new end of file. -/
theorem spec_C2_amended_witness :
    follow [97, 10, 98, 10] ⟨4, 9, 3⟩ ⟨false, true⟩ none =
      (⟨4, 4, 4⟩, [[97], [98]], ModificationType.Removed) := by
  have h := (spec_C2_amended [97, 10, 98, 10] ⟨4, 9, 3⟩ ⟨false, true⟩ none).1
    (by decide) rfl
  rw [h]
  decide

/-- C6 counterexample: two watched files, A (watch 0, truncated: snapshot 10,
now empty) and B (watch 1, unchanged: length 6, cursor 3).  Processing A's
close-write notification before B's makes the engine reset B's cursor — B
reprints its whole content — while processing B's notification alone prints
only from B's cursor.  B's own state, event and notification history are
identical in both runs, so the action on B depends on A's notification
through the shared `prev_mod_type`. -/
theorem spec_C6_counterexample :
    (processEvents (fun w => if w = 0 then [] else [97, 98, 10, 99, 100, 10])
      ⟨fun w => if w = 0 then ⟨0, 10, 0⟩ else ⟨3, 6, 3⟩, none⟩
      [(0, ⟨false, true⟩), (1, ⟨false, true⟩)]).2 =
      [(0, []), (1, [[97, 98], [99, 100]])] ∧
    (processEvents (fun w => if w = 0 then [] else [97, 98, 10, 99, 100, 10])
      ⟨fun w => if w = 0 then ⟨0, 10, 0⟩ else ⟨3, 6, 3⟩, none⟩
      [(1, ⟨false, true⟩)]).2 = [(1, [[99, 100]])] := by decide

/-- C6 (amended): processing a notification for one watch descriptor never
mutates another file's `StatefulFile` (cursor included) — but the action
chosen for a file is a function of the shared `prev_mod_type` of the last
processed notification of any file, not only of the file's own history, as
the counterexample shows. -/
theorem spec_C6_amended (contents : Nat → List Nat) (es : EngineState)
    (wd : Nat) (mask : EventMask) (w' : Nat) (hne : w' ≠ wd) :
    (processEvent contents es wd mask).1.files w' = es.files w' := by
  unfold processEvent
  by_cases hg : (mask.close_write || mask.modify) = true
  · rw [if_pos hg]
    simp [hne]
  · rw [if_neg hg]

/-- Witness for C6 (amended) at the counterexample's configuration: A's
notification leaves B's `StatefulFile` untouched. -/
theorem spec_C6_amended_witness :
    (processEvent (fun w => if w = 0 then [] else [97, 98, 10, 99, 100, 10])
      ⟨fun w => if w = 0 then ⟨0, 10, 0⟩ else ⟨3, 6, 3⟩, none⟩
      0 ⟨false, true⟩).1.files 1 =
      (⟨fun w => if w = 0 then ⟨0, 10, 0⟩ else ⟨3, 6, 3⟩, none⟩ : EngineState).files 1 :=
  spec_C6_amended (fun w => if w = 0 then [] else [97, 98, 10, 99, 100, 10])
    ⟨fun w => if w = 0 then ⟨0, 10, 0⟩ else ⟨3, 6, 3⟩, none⟩ 0 ⟨false, true⟩ 1
    (by decide)

end FollowTheorems

section RingBufferTheorems

/-- The loop body of `initial_print` (src/main.rs, lines 236-241): push the
line at the front of the deque and, once the length exceeds `num_lines`, pop
the oldest entry from the back.  The deque is modelled front-first, so the
back is the list's last element. -/
def initial_print_step {α : Type _} (num_lines : Nat) (buf : List α) (line : α) : List α :=
  if num_lines < (line :: buf).length then (line :: buf).dropLast else line :: buf

/-- `initial_print` (src/main.rs, lines 234-245) applied to the lines of the
input: feed every line through the bounded deque, then pop everything from
the back in turn — the reverse of the front-first deque is the print order. -/
def initial_print {α : Type _} (num_lines : Nat) (ls : List α) : List α :=
  (ls.foldl (initial_print_step num_lines) []).reverse

/-- Reversing after dropping the last element is the tail of the reversal. -/
theorem reverse_dropLast {α : Type _} (l : List α) : l.dropLast.reverse = l.reverse.tail := by
  induction l with
  | nil => rfl
  | cons x t ih =>
    cases t with
    | nil => rfl
    | cons y s =>
      rw [List.dropLast_cons_of_ne_nil (by simp : (y :: s) ≠ []), List.reverse_cons,
        List.reverse_cons, ih]
      obtain ⟨a, as, ha⟩ :=
        List.exists_cons_of_ne_nil (show (y :: s).reverse ≠ [] by simp)
      rw [ha]
      rfl

/-- Invariant of the `initial_print` fold: at every point the reversed deque
is the last `capacity` elements (in order) of the input consumed so far. -/
theorem initial_print_fold {α : Type _} (C : Nat) (hC : 1 ≤ C) :
    ∀ (ls : List α) (buf : List α), buf.length ≤ C →
      (ls.foldl (initial_print_step C) buf).reverse =
        (buf.reverse ++ ls).drop (buf.length + ls.length - C) := by
  intro ls
  induction ls with
  | nil =>
    intro buf hb
    simp only [List.foldl_nil, List.append_nil, List.length_nil, Nat.add_zero]
    rw [Nat.sub_eq_zero_of_le hb, List.drop_zero]
  | cons x rest ih =>
    intro buf hb
    rw [List.foldl_cons]
    rw [show initial_print_step C buf x =
      if C < (x :: buf).length then (x :: buf).dropLast else x :: buf from rfl]
    by_cases hlen : C < (x :: buf).length
    · -- the deque already holds C lines: evict the oldest from the back
      have hlen' : buf.length = C := by
        simp only [List.length_cons] at hlen
        omega
      have hbne : buf ≠ [] := by
        intro hnil
        rw [hnil] at hlen'
        simp at hlen'
        omega
      rw [if_pos hlen]
      rw [ih ((x :: buf).dropLast) (by simp only [List.length_dropLast, List.length_cons]; omega)]
      have hc1 : (x :: buf).dropLast.length + rest.length - C = rest.length := by
        simp only [List.length_dropLast, List.length_cons]
        omega
      have hc2 : buf.length + (x :: rest).length - C = rest.length + 1 := by
        simp only [List.length_cons]
        omega
      rw [hc1, hc2]
      rw [List.dropLast_cons_of_ne_nil hbne, List.reverse_cons, reverse_dropLast]
      obtain ⟨a, as, ha⟩ :=
        List.exists_cons_of_ne_nil (show buf.reverse ≠ [] by simp [hbne])
      rw [ha]
      simp [List.append_assoc]
    · -- still below capacity: keep everything
      rw [if_neg hlen]
      rw [ih (x :: buf) (by simp only [List.length_cons] at hlen ⊢; omega)]
      have hc : (x :: buf).length + rest.length - C = buf.length + (x :: rest).length - C := by
        simp only [List.length_cons]
        omega
      rw [hc, List.reverse_cons, List.append_assoc]
      simp

/-- C7: for every capacity of at least 1, feeding the lines of a forward scan
through the bounded deque (push front, evict back above capacity) and then
popping everything from the back yields exactly the last `capacity` pushed
values in push order when the input is longer than the capacity, and the
whole input otherwise. -/
theorem spec_C7_ring_buffer {α : Type _} (C : Nat) (hC : 1 ≤ C) (ls : List α) :
    (C < ls.length → initial_print C ls = ls.drop (ls.length - C) ∧
      (initial_print C ls).length = C) ∧
    (ls.length ≤ C → initial_print C ls = ls) := by
  have h := initial_print_fold C hC ls [] (by simp)
  have hmain : initial_print C ls = ls.drop (ls.length - C) := by
    unfold initial_print
    rw [h]
    simp
  constructor
  · intro hM
    refine ⟨hmain, ?_⟩
    rw [hmain]
    simp only [List.length_drop]
    omega
  · intro hM
    rw [hmain, Nat.sub_eq_zero_of_le hM, List.drop_zero]

/-- Witness for C7 at capacity 2: three pushes keep the last two in push
order; two pushes keep both. -/
theorem spec_C7_ring_buffer_witness :
    (1 ≤ 2) ∧ initial_print 2 [(10 : Nat), 20, 30] = [20, 30] ∧
      initial_print 2 [(10 : Nat), 20] = [10, 20] := by
  have h3 := spec_C7_ring_buffer 2 (by decide) [(10 : Nat), 20, 30]
  have h2 := spec_C7_ring_buffer 2 (by decide) [(10 : Nat), 20]
  refine ⟨by decide, ?_, ?_⟩
  · have := (h3.1 (by decide)).1
    simpa using this
  · have := h2.2 (by decide)
    simpa using this

end RingBufferTheorems

end Tail
